import Mathlib

/-!
# Verification of `naudit` (npm multi package audit tool)

Shallow embedding of `src/main.rs`.  The filesystem is modelled as an
association list from paths (component lists) to entries, listed in
directory-walk order.  Strings are Lean `String`s; line-oriented text
processing works on `List Char` (Rust `char` = Unicode scalar value =
Lean `Char`).
-/

namespace Naudit

/-- A filesystem path, as its list of components (e.g. `["home","x","package.json"]`).
Its string rendering (`Path::to_str`) joins components with `/`. -/
abbrev FPath := List String

/-- A filesystem entry.  `tarFile` and `gzFile` model the bytes produced by the
`tar` builder and the gzip encoder abstractly, as the list of
(entry name, entry contents) pairs they encode. -/
inductive FsEntry where
  | file (content : String)
  | dir
  | tarFile (entries : List (String × String))
  | gzFile (entries : List (String × String))
deriving DecidableEq, Repr

/-- A filesystem: association list from path to entry, in walk (DFS) order. -/
abbrev Fs := List (FPath × FsEntry)

/-- First entry registered at a path, if any (paths are unique in a real fs). -/
def Fs.find : Fs → FPath → Option FsEntry
  | [], _ => none
  | e :: rest, p => if e.1 = p then some e.2 else Fs.find rest p

/-- Rust `Path::is_file` — the path exists and is a regular file. -/
def Fs.isFile (fs : Fs) (p : FPath) : Bool :=
  match fs.find p with
  | some (.file _) => true
  | _ => false

/-- Rust `Path::is_dir` — the path exists and is a directory. -/
def Fs.isDir (fs : Fs) (p : FPath) : Bool :=
  match fs.find p with
  | some .dir => true
  | _ => false

/-- Content of the regular file at `p` (junk `""` when `p` is not a file). -/
def Fs.contentOf (fs : Fs) (p : FPath) : String :=
  match fs.find p with
  | some (.file c) => c
  | _ => ""

/-- Rust `std::fs::remove_dir_all` — removes the path and every descendant. -/
def Fs.removeSubtree (fs : Fs) (p : FPath) : Fs :=
  fs.filter (fun e => !(p.isPrefixOf e.1))

/-- Remove the single entry at `p` (`std::fs::remove_file`). -/
def Fs.removeEntry (fs : Fs) (p : FPath) : Fs :=
  fs.filter (fun e => !(e.1 = p : Bool))

/-- Overwrite or append an entry (file creation / `fs::copy` destination). -/
def Fs.set : Fs → FPath → FsEntry → Fs
  | [], p, v => [(p, v)]
  | e :: rest, p, v => if e.1 = p then (p, v) :: rest else e :: Fs.set rest p v

/-- Rust `Path::to_str` — render a path, components joined by `/`. -/
def pathStr (p : FPath) : String :=
  String.intercalate "/" p

/-- Rust `str::contains(pat)` — substring containment. -/
def strContains (s pat : String) : Bool :=
  decide (pat.data <:+: s.data)

/-- Bridge between the executable `List.isPrefixOf` and the prefix relation
(the library lemma, under a local name). -/
theorem isPrefixOf_true_iff {α : Type} [BEq α] [LawfulBEq α] {l1 l2 : List α} :
    l1.isPrefixOf l2 = true ↔ l1 <+: l2 :=
  List.isPrefixOf_iff_prefix

/-- The error type of main.rs restricted to the variants the embedded
code can produce. -/
inductive MainError where
  | PathNotSafeToDelete (path : String)
deriving DecidableEq, Repr

/-- Function `safer_remove_dir` (main.rs:278): guard that the rendered path contains
`"node_modules"` or `".audit"`, else `PathNotSafeToDelete`; if the path is an
existing directory, remove it recursively and return `true`, otherwise make
no change and return `false`. -/
def safer_remove_dir (fs : Fs) (path : FPath) : Except MainError (Fs × Bool) :=
  let path_str := pathStr path
  if !(strContains path_str "node_modules" || strContains path_str ".audit") then
    .error (.PathNotSafeToDelete path_str)
  else if fs.isDir path then
    .ok (fs.removeSubtree path, true)
  else
    .ok (fs, false)

/-- Function `safer_remove_file` (main.rs:295): guard that the rendered path contains
`"package-lock"`, else `PathNotSafeToDelete`; if the path is an existing
regular file, remove it and return `true`, otherwise no change, `false`. -/
def safer_remove_file (fs : Fs) (path : FPath) : Except MainError (Fs × Bool) :=
  let path_str := pathStr path
  if !(strContains path_str "package-lock") then
    .error (.PathNotSafeToDelete path_str)
  else if fs.isFile path then
    .ok (fs.removeEntry path, true)
  else
    .ok (fs, false)

/-- A path `q` (as stored in the fs) lies at or below `p`. -/
def underPath (p q : FPath) : Prop := p <+: q

theorem find_mem {fs : Fs} {p : FPath} {v : FsEntry} (h : fs.find p = some v) :
    (p, v) ∈ fs := by
  induction fs with
  | nil => simp [Fs.find] at h
  | cons e rest ih =>
    by_cases he : e.1 = p
    · simp [Fs.find, he] at h
      subst h
      have he2 : e = (p, e.2) := by
        calc e = (e.1, e.2) := rfl
          _ = (p, e.2) := by rw [he]
      rw [← he2]
      exact List.mem_cons_self _ _
    · simp [Fs.find, he] at h
      exact List.mem_cons_of_mem _ (ih h)

theorem isDir_mem {fs : Fs} {p : FPath} (h : fs.isDir p = true) : (p, FsEntry.dir) ∈ fs := by
  unfold Fs.isDir at h
  cases hf : fs.find p with
  | none => rw [hf] at h; simp at h
  | some v =>
    cases v with
    | dir => exact find_mem hf
    | file c => rw [hf] at h; simp at h
    | tarFile es => rw [hf] at h; simp at h
    | gzFile es => rw [hf] at h; simp at h

theorem find_removeSubtree_none (fs : Fs) (p q : FPath) (h : p <+: q) :
    Fs.find (fs.removeSubtree p) q = none := by
  induction fs with
  | nil => rfl
  | cons e rest ih =>
    unfold Fs.removeSubtree at *
    by_cases hp : p.isPrefixOf e.1
    · simp [List.filter, hp]
      exact ih
    · simp only [List.filter, hp, Bool.not_false]
      have hne : e.1 ≠ q := by
        intro he
        exact hp (by rw [isPrefixOf_true_iff, he]; exact h)
      simp [Fs.find, hne]
      exact ih

theorem find_removeEntry_none (fs : Fs) (p : FPath) :
    Fs.find (fs.removeEntry p) p = none := by
  induction fs with
  | nil => rfl
  | cons e rest ih =>
    unfold Fs.removeEntry at *
    by_cases hp : e.1 = p
    · simp [List.filter, hp]
      exact ih
    · simp only [List.filter, hp, Bool.not_false]
      simp [Fs.find, hp]
      exact ih

/-- C1: `safer_remove_dir` rejects every path whose rendered string contains
neither `"node_modules"` nor `".audit"` with a `PathNotSafeToDelete` error and
no filesystem change; `safer_remove_file` rejects every path lacking
`"package-lock"`.  For a marker-containing path naming an existing directory,
`safer_remove_dir` deletes it and all descendants and returns `true`; for a
marker-containing path that does not exist, it returns a no-op `false`. -/
theorem c1_safe_delete_guards :
    (∀ (fs : Fs) (p : FPath),
        strContains (pathStr p) "node_modules" = false →
        strContains (pathStr p) ".audit" = false →
        safer_remove_dir fs p = .error (.PathNotSafeToDelete (pathStr p)))
  ∧ (∀ (fs : Fs) (p : FPath),
        strContains (pathStr p) "package-lock" = false →
        safer_remove_file fs p = .error (.PathNotSafeToDelete (pathStr p)))
  ∧ (∀ (fs : Fs) (p : FPath),
        (strContains (pathStr p) "node_modules" || strContains (pathStr p) ".audit") = true →
        fs.isDir p = true →
        safer_remove_dir fs p = .ok (fs.removeSubtree p, true)
          ∧ ∀ q, p <+: q → Fs.find (fs.removeSubtree p) q = none)
  ∧ (∀ (fs : Fs) (p : FPath),
        (strContains (pathStr p) "node_modules" || strContains (pathStr p) ".audit") = true →
        fs.find p = none →
        safer_remove_dir fs p = .ok (fs, false)) := by
  refine ⟨?_, ?_, ?_, ?_⟩
  · intro fs p h1 h2
    simp [safer_remove_dir, h1, h2]
  · intro fs p h1
    simp [safer_remove_file, h1]
  · intro fs p hm hd
    refine ⟨by simp [safer_remove_dir, hm, hd], ?_⟩
    intro q hq
    exact find_removeSubtree_none fs p q hq
  · intro fs p hm hnone
    have hd : fs.isDir p = false := by
      unfold Fs.isDir
      rw [hnone]
    simp [safer_remove_dir, hm, hd]

/-- Witness for C1 at concrete filesystems and paths. -/
theorem c1_safe_delete_guards_witness :
    safer_remove_dir [((["r"], FsEntry.dir)), ((["r", "src"], FsEntry.dir))] ["r", "src"]
      = .error (.PathNotSafeToDelete (pathStr ["r", "src"]))
  ∧ safer_remove_file [((["r", "notes.txt"], FsEntry.file "n"))] ["r", "notes.txt"]
      = .error (.PathNotSafeToDelete (pathStr ["r", "notes.txt"]))
  ∧ safer_remove_dir
      [((["r"], FsEntry.dir)), ((["r", "node_modules"], FsEntry.dir)),
       ((["r", "node_modules", "x.js"], FsEntry.file "y"))] ["r", "node_modules"]
      = .ok (Fs.removeSubtree
          [((["r"], FsEntry.dir)), ((["r", "node_modules"], FsEntry.dir)),
           ((["r", "node_modules", "x.js"], FsEntry.file "y"))] ["r", "node_modules"], true)
  ∧ safer_remove_dir [((["r"], FsEntry.dir))] ["r", ".audit"]
      = .ok ([((["r"], FsEntry.dir))], false) :=
  ⟨c1_safe_delete_guards.1 _ _ (by decide) (by decide),
   c1_safe_delete_guards.2.1 _ _ (by decide),
   (c1_safe_delete_guards.2.2.1 _ _ (by decide) (by decide)).1,
   c1_safe_delete_guards.2.2.2 _ _ (by decide) (by decide)⟩

/-- C10: for marker-containing paths, `safer_remove_dir` deletes only when the
path is an existing directory (no-op `false` when it is a regular file or
absent), and `safer_remove_file` deletes only when the path is an existing
regular file (no-op `false` when it is a directory); the returned boolean is
exactly the "target had the deletable kind" test, and when it is `true` the
target is gone afterwards. -/
theorem c10_safe_delete_kind_dispatch :
    (∀ (fs : Fs) (p : FPath),
        (strContains (pathStr p) "node_modules" || strContains (pathStr p) ".audit") = true →
        safer_remove_dir fs p =
            .ok (if fs.isDir p then fs.removeSubtree p else fs, fs.isDir p)
          ∧ (fs.isFile p = true → safer_remove_dir fs p = .ok (fs, false))
          ∧ (fs.isDir p = true → Fs.find (fs.removeSubtree p) p = none))
  ∧ (∀ (fs : Fs) (p : FPath),
        strContains (pathStr p) "package-lock" = true →
        safer_remove_file fs p =
            .ok (if fs.isFile p then fs.removeEntry p else fs, fs.isFile p)
          ∧ (fs.isDir p = true → safer_remove_file fs p = .ok (fs, false))
          ∧ (fs.isFile p = true → Fs.find (fs.removeEntry p) p = none)) := by
  constructor
  · intro fs p hm
    refine ⟨?_, ?_, ?_⟩
    · by_cases hd : fs.isDir p <;> simp [safer_remove_dir, hm, hd]
    · intro hf
      have hd : fs.isDir p = false := by
        unfold Fs.isDir
        unfold Fs.isFile at hf
        cases hfind : fs.find p with
        | none => rfl
        | some v => cases v <;> simp [hfind] at hf ⊢
      simp [safer_remove_dir, hm, hd]
    · intro _
      exact find_removeSubtree_none fs p p (List.prefix_refl p)
  · intro fs p hm
    refine ⟨?_, ?_, ?_⟩
    · by_cases hf : fs.isFile p <;> simp [safer_remove_file, hm, hf]
    · intro hd
      have hf : fs.isFile p = false := by
        unfold Fs.isFile
        unfold Fs.isDir at hd
        cases hfind : fs.find p with
        | none => rfl
        | some v => cases v <;> simp [hfind] at hd ⊢
      simp [safer_remove_file, hm, hf]
    · intro _
      exact find_removeEntry_none fs p

/-- Witness for C10: a marker path that exists as a regular file is a no-op for
`safer_remove_dir`, and a marker path that exists as a directory is a no-op
for `safer_remove_file`. -/
theorem c10_safe_delete_kind_dispatch_witness :
    safer_remove_dir [((["r", "node_modules"], FsEntry.file "f"))] ["r", "node_modules"]
      = .ok ([((["r", "node_modules"], FsEntry.file "f"))], false)
  ∧ safer_remove_file [((["r", "package-lock.json"], FsEntry.dir))] ["r", "package-lock.json"]
      = .ok ([((["r", "package-lock.json"], FsEntry.dir))], false) :=
  ⟨(c10_safe_delete_kind_dispatch.1 _ _ (by decide)).2.1 (by decide),
   (c10_safe_delete_kind_dispatch.2 _ _ (by decide)).2.1 (by decide)⟩

/-- Rust `str::replace(pat, rep)` on character lists: replace non-overlapping
occurrences of `pat` left to right by `rep`.  (`pat` is nonempty at every call
site of `main.rs`; the `pat ≠ []` guard only rules out a degenerate loop.) -/
def replChars (pat rep : List Char) : List Char → List Char
  | [] => []
  | c :: rest =>
    if pat ≠ [] ∧ pat.isPrefixOf (c :: rest) then
      rep ++ replChars pat rep (rest.drop (pat.length - 1))
    else
      c :: replChars pat rep rest
termination_by l => l.length
decreasing_by
  · simp
    omega
  · simp

/-- The color fragment `"[90m"` stripped by `cmd_audit` (main.rs:196; the
source literal is the four plain characters, with no escape byte). -/
def frag90 : List Char := ['[', '9', '0', 'm']

/-- The color fragment `"[39m"` stripped by `cmd_audit` (main.rs:197). -/
def frag39 : List Char := ['[', '3', '9', 'm']

/-- The two `replace` calls of `cmd_audit` (main.rs:196-197). -/
def stripAnsi (s : List Char) : List Char :=
  replChars frag39 [] (replChars frag90 [] s)

/-- Full split on `'\n'` (Rust `str::split('\n')`): `""` gives one empty piece. -/
def splitOnNl : List Char → List (List Char)
  | [] => [[]]
  | c :: rest =>
    if c = '\n' then [] :: splitOnNl rest
    else
      match splitOnNl rest with
      | [] => [[c]]
      | l :: ls => (c :: l) :: ls

/-- Rust `str::split_terminator('\n')`: full split with the final empty piece
dropped. -/
def splitLinesT (s : List Char) : List (List Char) :=
  if (splitOnNl s).getLast? = some [] then (splitOnNl s).dropLast else splitOnNl s

/-- Rust `str::lines()` strips one trailing `'\r'` from each piece. -/
def stripCr (l : List Char) : List Char :=
  if l.getLast? = some '\r' then l.dropLast else l

/-- Rust `str::lines()`. -/
def rustLines (s : List Char) : List (List Char) :=
  (splitLinesT s).map stripCr

/-- Rust `Vec::join("\n")`. -/
def joinLines : List (List Char) → List Char
  | [] => []
  | [l] => l
  | l :: ls => l ++ '\n' :: joinLines ls

/-- Rust `str::trim()`, with `isW` abstracting `char::is_whitespace`. -/
def trimWs (isW : Char → Bool) (l : List Char) : List Char :=
  ((l.dropWhile isW).reverse.dropWhile isW).reverse

/-- Per-line cleaning of `cmd_audit` (main.rs:202-204): remove every character
that is neither alphanumeric nor whitespace, then trim.  `isA` and `isW`
abstract Rust's Unicode `char::is_alphanumeric` and `char::is_whitespace`. -/
def cleanLine (isA isW : Char → Bool) (l : List Char) : List Char :=
  trimWs isW (l.filter (fun c => isA c || isW c))

/-- The output sanitization of `cmd_audit` (main.rs:196-208): strip the two
color fragments, split into Rust lines, clean each line, join with `'\n'`. -/
def cmd_audit_sanitize (isA isW : Char → Bool) (out : List Char) : List Char :=
  joinLines ((rustLines (stripAnsi out)).map (cleanLine isA isW))

/-- Rust `char::is_alphanumeric`, restricted to ASCII (the Unicode predicate
agrees with this one on every ASCII character); instantiates witnesses. -/
def isAlnumAscii (c : Char) : Bool := c.isAlphanum

/-- Rust `char::is_whitespace`, restricted to ASCII (the ASCII characters with
the Unicode `White_Space` property). -/
def isWsAscii (c : Char) : Bool :=
  c = ' ' || c = '\t' || c = '\n' || c = '\r' || c = '\x0B' || c = '\x0C'

theorem splitOnNl_ne_nil (s : List Char) : splitOnNl s ≠ [] := by
  induction s with
  | nil => simp [splitOnNl]
  | cons c rest ih =>
    by_cases hc : c = '\n'
    · simp [splitOnNl, hc]
    · simp only [splitOnNl, hc, if_false]
      cases splitOnNl rest with
      | nil => simp
      | cons l ls => simp

theorem prefix_cons_cons {α : Type} {c : α} {l r : List α} (h : l <+: r) :
    c :: l <+: c :: r := by
  obtain ⟨t, ht⟩ := h
  exact ⟨t, by rw [List.cons_append, ht]⟩

theorem splitOnNl_head_leading {s h : List Char} {hs : List (List Char)}
    (he : splitOnNl s = h :: hs) : h <+: s := by
  induction s generalizing h hs with
  | nil =>
    simp [splitOnNl] at he
    simp [he.1]
  | cons c rest ih =>
    by_cases hc : c = '\n'
    · simp [splitOnNl, hc] at he
      rw [he.1]
      exact List.nil_prefix
    · simp only [splitOnNl, hc, if_false] at he
      cases hrest : splitOnNl rest with
      | nil => exact absurd hrest (splitOnNl_ne_nil rest)
      | cons l ls =>
        rw [hrest] at he
        cases he
        exact prefix_cons_cons (ih hrest)

theorem splitOnNl_append_left {pat : List Char} (hnl : '\n' ∉ pat) :
    ∀ {t h : List Char} {hs : List (List Char)}, splitOnNl t = h :: hs →
      splitOnNl (pat ++ t) = (pat ++ h) :: hs := by
  induction pat with
  | nil => intro t h hs he; simpa using he
  | cons c pr ih =>
    intro t h hs he
    have hc : c ≠ '\n' := fun hh => hnl (hh ▸ List.mem_cons_self c pr)
    have hpr : '\n' ∉ pr := fun hh => hnl (List.mem_cons_of_mem c hh)
    have ih' := ih hpr he
    simp only [List.cons_append, splitOnNl, hc, if_false, List.append_eq, ih']

theorem mem_splitOnNl_no_nl {s l : List Char} (hl : l ∈ splitOnNl s) : '\n' ∉ l := by
  induction s generalizing l with
  | nil =>
    simp [splitOnNl] at hl
    simp [hl]
  | cons c rest ih =>
    by_cases hc : c = '\n'
    · simp only [splitOnNl, hc, if_true, List.mem_cons] at hl
      rcases hl with hl | hl
      · simp [hl]
      · exact ih hl
    · simp only [splitOnNl, hc, if_false] at hl
      cases hrest : splitOnNl rest with
      | nil => exact absurd hrest (splitOnNl_ne_nil rest)
      | cons m ms =>
        rw [hrest] at hl
        rcases List.mem_cons.mp hl with hl | hl
        · subst hl
          intro hmem
          rcases List.mem_cons.mp hmem with hh | hh
          · exact hc hh.symm
          · exact ih (hrest ▸ List.mem_cons_self m ms) hh
        · exact ih (hrest ▸ List.mem_cons_of_mem m hl)

theorem replChars_nil (pat rep : List Char) : replChars pat rep [] = [] := by
  simp [replChars]

theorem replChars_append_self {pat : List Char} (hp : pat ≠ []) (rep t : List Char) :
    replChars pat rep (pat ++ t) = rep ++ replChars pat rep t := by
  cases pat with
  | nil => exact absurd rfl hp
  | cons p0 pr =>
    have hpre : (p0 :: pr).isPrefixOf (p0 :: pr ++ t) := by
      rw [isPrefixOf_true_iff]
      exact ⟨t, rfl⟩
    rw [List.cons_append, replChars, if_pos ⟨hp, hpre⟩]
    congr 2
    simp [List.drop_left']

theorem replChars_cons_of_not_match {pat : List Char} {c : Char} {rest : List Char}
    (h : ¬ pat.isPrefixOf (c :: rest)) (rep : List Char) :
    replChars pat rep (c :: rest) = c :: replChars pat rep rest := by
  rw [replChars, if_neg]
  intro hand
  exact h hand.2

theorem replChars_no_occurrence {pat : List Char} {c : Char} (hc : c ∈ pat) (rep : List Char) :
    ∀ {s : List Char}, c ∉ s → replChars pat rep s = s := by
  intro s
  induction s with
  | nil => intro _; exact replChars_nil pat rep
  | cons a rest ih =>
    intro hns
    have hmatch : ¬ pat.isPrefixOf (a :: rest) := by
      intro hpre
      rw [isPrefixOf_true_iff] at hpre
      exact hns (hpre.sublist.mem hc)
    rw [replChars_cons_of_not_match hmatch]
    rw [ih (fun hm => hns (List.mem_cons_of_mem a hm))]

theorem splitOnNl_replChars {pat : List Char} (hp : pat ≠ []) (hnl : '\n' ∉ pat) :
    ∀ s, splitOnNl (replChars pat [] s) = (splitOnNl s).map (replChars pat []) := by
  have main : ∀ (n : Nat) (s : List Char), s.length ≤ n →
      splitOnNl (replChars pat [] s) = (splitOnNl s).map (replChars pat []) := by
    intro n
    induction n with
    | zero =>
      intro s hs
      have : s = [] := List.eq_nil_of_length_eq_zero (Nat.le_zero.mp hs)
      subst this
      simp [replChars_nil, splitOnNl]
    | succ n ih =>
      intro s hs
      cases s with
      | nil => simp [replChars_nil, splitOnNl]
      | cons c rest =>
        by_cases hmatch : pat.isPrefixOf (c :: rest)
        · obtain ⟨t, ht⟩ := isPrefixOf_true_iff.mp hmatch
          rw [← ht]
          rw [replChars_append_self hp, List.nil_append]
          obtain ⟨h, hs', hsplit⟩ :
              ∃ h hs', splitOnNl t = h :: hs' := by
            cases he : splitOnNl t with
            | nil => exact absurd he (splitOnNl_ne_nil t)
            | cons a b => exact ⟨a, b, rfl⟩
          have hlt : t.length ≤ n := by
            have h1 : pat.length + t.length = rest.length + 1 := by
              have := congrArg List.length ht
              simpa using this
            have h2 : 1 ≤ pat.length := by
              cases pat with
              | nil => exact absurd rfl hp
              | cons _ _ => simp
            have h3 : rest.length + 1 ≤ n + 1 := by simpa using hs
            omega
          rw [ih t hlt, hsplit, splitOnNl_append_left hnl hsplit]
          simp [replChars_append_self hp]
        · rw [replChars_cons_of_not_match hmatch]
          have hrest : rest.length ≤ n := by simpa using Nat.lt_succ_iff.mp (Nat.lt_of_lt_of_le (Nat.lt_succ_self _) hs)
          by_cases hc : c = '\n'
          · subst hc
            simp only [splitOnNl, if_pos rfl]
            rw [ih rest hrest]
            simp [replChars_nil]
          · obtain ⟨h, hs', hsplit⟩ :
                ∃ h hs', splitOnNl rest = h :: hs' := by
              cases he : splitOnNl rest with
              | nil => exact absurd he (splitOnNl_ne_nil rest)
              | cons a b => exact ⟨a, b, rfl⟩
            have hch : ¬ pat.isPrefixOf (c :: h) := by
              intro hpre
              apply hmatch
              rw [isPrefixOf_true_iff] at hpre ⊢
              exact hpre.trans (prefix_cons_cons (splitOnNl_head_leading hsplit))
            simp only [splitOnNl, hc, if_false]
            rw [ih rest hrest, hsplit]
            simp only [List.map_cons]
            rw [replChars_cons_of_not_match hch]
  intro s
  exact main s.length s le_rfl

theorem map_getLast? {α β : Type} (f : α → β) (l : List α) :
    (l.map f).getLast? = l.getLast?.map f := by
  induction l with
  | nil => rfl
  | cons a rest ih =>
    cases rest with
    | nil => rfl
    | cons b r =>
      simp only [List.map_cons] at ih ⊢
      rw [List.getLast?_cons_cons, List.getLast?_cons_cons, ih]

theorem map_dropLast {α β : Type} (f : α → β) (l : List α) :
    l.dropLast.map f = (l.map f).dropLast := by
  induction l with
  | nil => rfl
  | cons a rest ih =>
    cases rest with
    | nil => rfl
    | cons b r =>
      simp only [List.map_cons, List.dropLast_cons₂] at ih ⊢
      rw [ih]

theorem getLast?_of_ne_nil {α : Type} {l : List α} (h : l ≠ []) :
    ∃ a, l.getLast? = some a := by
  cases l with
  | nil => exact absurd rfl h
  | cons a rest => exact ⟨(a :: rest).getLast (by simp), List.getLast?_eq_getLast _ _⟩

theorem splitLinesT_replChars {pat : List Char} (hp : pat ≠ []) (hnl : '\n' ∉ pat)
    (s : List Char)
    (hcond : ∀ l, (splitOnNl s).getLast? = some l → (l = [] ∨ replChars pat [] l ≠ [])) :
    splitLinesT (replChars pat [] s) = (splitLinesT s).map (replChars pat []) := by
  unfold splitLinesT
  rw [splitOnNl_replChars hp hnl s]
  obtain ⟨lastp, hl⟩ := getLast?_of_ne_nil (splitOnNl_ne_nil s)
  rcases hcond lastp hl with hnil | hne
  · subst hnil
    rw [map_getLast?, hl]
    simp only [Option.map_some', replChars_nil, hl, if_pos rfl]
    exact (map_dropLast _ _).symm
  · have hlastne : lastp ≠ [] := fun h => hne (by rw [h, replChars_nil])
    rw [map_getLast?, hl]
    simp only [Option.map_some', hl]
    rw [if_neg (by simp [hne]), if_neg (by simp [hlastne])]

theorem splitLinesT_stripAnsi (s : List Char)
    (hcond : ∀ l, (splitOnNl s).getLast? = some l → (l = [] ∨ stripAnsi l ≠ [])) :
    splitLinesT (stripAnsi s) = (splitLinesT s).map stripAnsi := by
  have h90 : ∀ l, (splitOnNl s).getLast? = some l → (l = [] ∨ replChars frag90 [] l ≠ []) := by
    intro l hl
    rcases hcond l hl with h | h
    · exact Or.inl h
    · right
      intro hz
      apply h
      unfold stripAnsi
      rw [hz, replChars_nil]
  have h39 : ∀ l, (splitOnNl (replChars frag90 [] s)).getLast? = some l →
      (l = [] ∨ replChars frag39 [] l ≠ []) := by
    intro l hl
    rw [splitOnNl_replChars (by decide) (by decide) s, map_getLast?] at hl
    obtain ⟨lp, he⟩ := getLast?_of_ne_nil (splitOnNl_ne_nil s)
    rw [he] at hl
    simp only [Option.map_some', Option.some.injEq] at hl
    rcases hcond lp he with h | h
    · left
      rw [← hl, h, replChars_nil]
    · right
      rw [← hl]
      exact h
  unfold stripAnsi
  rw [splitLinesT_replChars (by decide) (by decide) _ h39,
      splitLinesT_replChars (by decide) (by decide) s h90, List.map_map]
  rfl

theorem dropWhile_append_split {α : Type} [DecidableEq α] (p : α → Bool) (l₁ l₂ : List α) :
    (l₁ ++ l₂).dropWhile p =
      if l₁.dropWhile p = [] then l₂.dropWhile p else l₁.dropWhile p ++ l₂ := by
  induction l₁ with
  | nil => simp
  | cons a r ih =>
    by_cases ha : p a
    · simp only [List.cons_append, List.dropWhile_cons, ha, if_pos rfl, ite_true]
      exact ih
    · simp [List.dropWhile_cons, ha]

theorem trimWs_append_ws {isW : Char → Bool} {c : Char} (hc : isW c = true) (y : List Char) :
    trimWs isW (y ++ [c]) = trimWs isW y := by
  unfold trimWs
  rw [dropWhile_append_split]
  by_cases hy : y.dropWhile isW = []
  · simp [hy, hc]
  · rw [if_neg hy]
    simp only [List.reverse_append, List.reverse_cons, List.reverse_nil, List.nil_append,
      List.singleton_append, List.dropWhile_cons, hc, ite_true]

theorem cleanLine_stripCr (isA isW : Char → Bool) (hWr : isW '\r' = true) (l : List Char) :
    cleanLine isA isW (stripCr l) = cleanLine isA isW l := by
  unfold stripCr
  by_cases h : l.getLast? = some '\r'
  · rw [if_pos h]
    have hl : l.dropLast ++ ['\r'] = l :=
      List.dropLast_append_getLast? '\r' h
    unfold cleanLine
    conv_rhs => rw [← hl]
    rw [List.filter_append]
    have hf : List.filter (fun c => isA c || isW c) ['\r'] = ['\r'] := by
      simp [hWr]
    rw [hf, trimWs_append_ws hWr]
  · rw [if_neg h]

/-- C3 (amended): sanitization is line-oriented and order-preserving — the
output is the newline-join of the per-line results, where the i-th emitted
line is obtained from the i-th input line (as split by `'\n'`, final line
terminator dropped) by fragment removal, character cleaning and trimming; in
particular the number of emitted lines equals the number of input lines, and
empty input lines are still emitted (as empty strings).  Amendments forced by
the counterexample: a NON-empty input line may yield an EMPTY output line, and
the per-line correspondence requires that the last input line is not entirely
consumed by fragment removal. -/
theorem c3_sanitize_line_structure (isA isW : Char → Bool) (out : List Char)
    (hWr : isW '\r' = true)
    (hlast : ∀ l, (splitOnNl out).getLast? = some l → (l = [] ∨ stripAnsi l ≠ [])) :
    cmd_audit_sanitize isA isW out
      = joinLines ((splitLinesT out).map (fun l => cleanLine isA isW (stripAnsi l))) := by
  unfold cmd_audit_sanitize rustLines
  rw [splitLinesT_stripAnsi out hlast, List.map_map, List.map_map]
  congr 1
  apply List.map_congr_left
  intro l _
  simp only [Function.comp_apply]
  exact cleanLine_stripCr isA isW hWr (stripAnsi l)

/-- Counterexample to C3 as stated: the non-empty input line `"!"` of
`"ab\n!"` yields an empty output line, so the number of non-empty lines is
not preserved; and the input line `"[90m"` of `"a\n[90m"` is entirely
consumed, so the output has fewer lines than the input. -/
theorem c3_sanitize_counterexample :
    cmd_audit_sanitize isAlnumAscii isWsAscii ['a', 'b', '\n', '!'] = ['a', 'b', '\n']
  ∧ cmd_audit_sanitize isAlnumAscii isWsAscii ['a', '\n', '[', '9', '0', 'm'] = ['a']
  ∧ rustLines ['a', 'b', '\n', '!'] = [['a', 'b'], ['!']]
  ∧ rustLines ['a', '\n', '[', '9', '0', 'm'] = [['a'], ['[', '9', '0', 'm']] := by
  refine ⟨?_, ?_, by decide, by decide⟩
  · simp [cmd_audit_sanitize, stripAnsi, replChars, frag90, frag39, rustLines, splitLinesT,
      splitOnNl, stripCr, cleanLine, trimWs, joinLines, isAlnumAscii, isWsAscii,
      List.dropWhile, List.filter]
  · simp [cmd_audit_sanitize, stripAnsi, replChars, frag90, frag39, rustLines, splitLinesT,
      splitOnNl, stripCr, cleanLine, trimWs, joinLines, isAlnumAscii, isWsAscii,
      List.dropWhile, List.filter]

/-- Witness for the amended C3 at a concrete input whose last line is empty. -/
theorem c3_sanitize_line_structure_witness :
    isWsAscii '\r' = true
  ∧ cmd_audit_sanitize isAlnumAscii isWsAscii ['a', 'b', '\n']
      = joinLines ((splitLinesT ['a', 'b', '\n']).map
          (fun l => cleanLine isAlnumAscii isWsAscii (stripAnsi l))) :=
  ⟨by decide,
   c3_sanitize_line_structure isAlnumAscii isWsAscii ['a', 'b', '\n'] (by decide)
     (by
       intro l hl
       simp [splitOnNl] at hl
       simp [hl])⟩

theorem mem_joinLines {c : Char} : ∀ {L : List (List Char)},
    c ∈ joinLines L → c = '\n' ∨ ∃ l ∈ L, c ∈ l := by
  intro L
  induction L with
  | nil => intro h; simp [joinLines] at h
  | cons l ls ih =>
    intro h
    cases ls with
    | nil =>
      right
      exact ⟨l, List.mem_cons_self _ _, by simpa [joinLines] using h⟩
    | cons l' ls' =>
      rw [show joinLines (l :: l' :: ls') = l ++ '\n' :: joinLines (l' :: ls') from rfl] at h
      rcases List.mem_append.mp h with h | h
      · exact Or.inr ⟨l, List.mem_cons_self _ _, h⟩
      · rcases List.mem_cons.mp h with h | h
        · exact Or.inl h
        · rcases ih h with h | ⟨m, hm, hc⟩
          · exact Or.inl h
          · exact Or.inr ⟨m, List.mem_cons_of_mem _ hm, hc⟩

theorem noNl_splitOnNl {l : List Char} (h : '\n' ∉ l) : splitOnNl l = [l] := by
  induction l with
  | nil => rfl
  | cons c r ih =>
    have hc : c ≠ '\n' := fun hh => h (hh ▸ List.mem_cons_self c r)
    have hr : '\n' ∉ r := fun hh => h (List.mem_cons_of_mem c hh)
    simp only [splitOnNl, hc, if_false, ih hr]

theorem joinLines_splitOnNl : ∀ {L : List (List Char)}, L ≠ [] →
    (∀ l ∈ L, '\n' ∉ l) → splitOnNl (joinLines L) = L := by
  intro L
  induction L with
  | nil => intro h; exact absurd rfl h
  | cons l ls ih =>
    intro _ hmem
    cases ls with
    | nil => exact noNl_splitOnNl (hmem l (List.mem_cons_self _ _))
    | cons l' ls' =>
      rw [show joinLines (l :: l' :: ls') = l ++ '\n' :: joinLines (l' :: ls') from rfl]
      have htail : splitOnNl (joinLines (l' :: ls')) = l' :: ls' :=
        ih (by simp) (fun m hm => hmem m (List.mem_cons_of_mem _ hm))
      have hnlcons : splitOnNl ('\n' :: joinLines (l' :: ls')) = [] :: l' :: ls' := by
        simp [splitOnNl, htail]
      have := splitOnNl_append_left (hmem l (List.mem_cons_self _ _)) hnlcons
      rw [this, List.append_nil]

theorem joinLines_getLast_nl : ∀ {L : List (List Char)}, L.getLast? = some [] →
    2 ≤ L.length → (joinLines L).getLast? = some '\n' := by
  intro L
  induction L with
  | nil => intro h _; simp at h
  | cons a ls ih =>
    intro hlast hlen
    cases ls with
    | nil => simp at hlen
    | cons b ls' =>
      rw [show joinLines (a :: b :: ls') = a ++ '\n' :: joinLines (b :: ls') from rfl]
      rw [List.getLast?_append_of_ne_nil _ (by simp)]
      cases ls' with
      | nil =>
        have hb : b = [] := by simpa using hlast
        subst hb
        rfl
      | cons c ls'' =>
        have htail : (joinLines (b :: c :: ls'')).getLast? = some '\n' :=
          ih (by simpa using hlast) (by simp)
        obtain ⟨j, js, hj⟩ : ∃ j js, joinLines (b :: c :: ls'') = j :: js := by
          cases hjj : joinLines (b :: c :: ls'') with
          | nil => rw [hjj] at htail; simp at htail
          | cons j js => exact ⟨j, js, rfl⟩
        rw [hj]
        rw [hj] at htail
        rw [List.getLast?_cons_cons]
        exact htail

theorem dropWhile_head_not {α : Type} {p : α → Bool} :
    ∀ {l : List α} {c : α}, (l.dropWhile p).head? = some c → p c = false := by
  intro l
  induction l with
  | nil => intro c h; simp at h
  | cons a r ih =>
    intro c h
    by_cases ha : p a
    · rw [List.dropWhile_cons, if_pos ha] at h
      exact ih h
    · rw [List.dropWhile_cons, if_neg ha] at h
      simp at h ha
      rw [← h]
      exact ha

theorem suffix_getLast? {α : Type} {w z : List α} (h : w <:+ z) (hw : w ≠ []) :
    z.getLast? = w.getLast? := by
  obtain ⟨u, hu⟩ := h
  rw [← hu, List.getLast?_append_of_ne_nil _ hw]

theorem trimWs_getLast_not {isW : Char → Bool} {l : List Char} {c : Char}
    (h : (trimWs isW l).getLast? = some c) : isW c = false := by
  unfold trimWs at h
  rw [List.getLast?_reverse] at h
  exact dropWhile_head_not h

theorem trimWs_head_not {isW : Char → Bool} {l : List Char} {c : Char}
    (h : (trimWs isW l).head? = some c) : isW c = false := by
  unfold trimWs at h
  rw [List.head?_reverse] at h
  have hw : (l.dropWhile isW).reverse.dropWhile isW ≠ [] := by
    intro hz
    rw [hz] at h
    simp at h
  rw [← suffix_getLast? (List.dropWhile_suffix _) hw, List.getLast?_reverse] at h
  exact dropWhile_head_not h

theorem trimWs_eq_self {isW : Char → Bool} {l : List Char}
    (hh : ∀ c, l.head? = some c → isW c = false)
    (hl : ∀ c, l.getLast? = some c → isW c = false) : trimWs isW l = l := by
  have h1 : l.dropWhile isW = l := by
    cases l with
    | nil => rfl
    | cons a r => simp [List.dropWhile_cons, hh a rfl]
  unfold trimWs
  rw [h1]
  have h2 : l.reverse.dropWhile isW = l.reverse := by
    cases hr : l.reverse with
    | nil => rfl
    | cons a t =>
      have ha : l.getLast? = some a := by
        rw [← List.head?_reverse, hr]
        rfl
      simp [List.dropWhile_cons, hl a ha]
  rw [h2, List.reverse_reverse]

theorem mem_trimWs {isW : Char → Bool} {l : List Char} {c : Char}
    (h : c ∈ trimWs isW l) : c ∈ l := by
  unfold trimWs at h
  rw [List.mem_reverse] at h
  have h2 := (List.dropWhile_sublist (p := isW)
    (l := (l.dropWhile isW).reverse)).mem h
  rw [List.mem_reverse] at h2
  exact (List.dropWhile_sublist (p := isW) (l := l)).mem h2

theorem mem_cleanLine_keep {isA isW : Char → Bool} {l : List Char} {c : Char}
    (h : c ∈ cleanLine isA isW l) : (isA c || isW c) = true := by
  unfold cleanLine at h
  have := List.of_mem_filter (mem_trimWs h)
  simpa using this

theorem mem_cleanLine_mem {isA isW : Char → Bool} {l : List Char} {c : Char}
    (h : c ∈ cleanLine isA isW l) : c ∈ l := by
  unfold cleanLine at h
  exact List.mem_of_mem_filter (mem_trimWs h)

theorem cleanLine_fixed (isA isW : Char → Bool) (hWr : isW '\r' = true) (m : List Char) :
    cleanLine isA isW (cleanLine isA isW m) = cleanLine isA isW m
  ∧ stripCr (cleanLine isA isW m) = cleanLine isA isW m := by
  have hhead : ∀ c, (cleanLine isA isW m).head? = some c → isW c = false := by
    intro c hc
    unfold cleanLine at hc
    exact trimWs_head_not hc
  have hlast : ∀ c, (cleanLine isA isW m).getLast? = some c → isW c = false := by
    intro c hc
    unfold cleanLine at hc
    exact trimWs_getLast_not hc
  have hfilter : List.filter (fun c => isA c || isW c) (cleanLine isA isW m)
      = cleanLine isA isW m := by
    apply List.filter_eq_self.mpr
    intro c hc
    simpa using mem_cleanLine_keep hc
  refine ⟨?_, ?_⟩
  · calc cleanLine isA isW (cleanLine isA isW m)
        = trimWs isW (List.filter (fun c => isA c || isW c) (cleanLine isA isW m)) := rfl
      _ = trimWs isW (cleanLine isA isW m) := by rw [hfilter]
      _ = cleanLine isA isW m := trimWs_eq_self hhead hlast
  · unfold stripCr
    rw [if_neg]
    intro hc
    have := hlast '\r' hc
    rw [hWr] at this
    simp at this

/-- C7 (amended): sanitization never emits a character that is neither
alphanumeric nor whitespace, and it is idempotent on every input whose
sanitized form does not end in a newline.  Amendment forced by the
counterexample: when the sanitized text ends with `'\n'` (its final emitted
line is empty), a second pass drops that trailing empty line, so full
idempotence fails. -/
theorem c7_sanitize_idempotent (isA isW : Char → Bool)
    (hWn : isW '\n' = true) (hWr : isW '\r' = true)
    (hAbr : isA '[' = false) (hWbr : isW '[' = false) :
    (∀ x, (cmd_audit_sanitize isA isW x).getLast? ≠ some '\n' →
        cmd_audit_sanitize isA isW (cmd_audit_sanitize isA isW x)
          = cmd_audit_sanitize isA isW x)
  ∧ (∀ x c, c ∈ cmd_audit_sanitize isA isW x → (isA c || isW c) = true) := by
  have hsempty : cmd_audit_sanitize isA isW [] = [] := by
    simp [cmd_audit_sanitize, stripAnsi, replChars_nil, rustLines, splitLinesT, splitOnNl,
      joinLines]
  have hmem : ∀ x c, c ∈ cmd_audit_sanitize isA isW x → (isA c || isW c) = true := by
    intro x c hc
    unfold cmd_audit_sanitize at hc
    rcases mem_joinLines hc with h | ⟨l, hlmem, hcl⟩
    · subst h
      simp [hWn]
    · obtain ⟨m, _, hm⟩ := List.mem_map.mp hlmem
      rw [← hm] at hcl
      exact mem_cleanLine_keep hcl
  refine ⟨?_, hmem⟩
  intro x hx
  have hy : cmd_audit_sanitize isA isW x
      = joinLines ((rustLines (stripAnsi x)).map (cleanLine isA isW)) := rfl
  set L := (rustLines (stripAnsi x)).map (cleanLine isA isW) with hLdef
  have hprops : ∀ l ∈ L, ('\n' ∉ l) ∧ cleanLine isA isW l = l ∧ stripCr l = l := by
    intro l hl
    obtain ⟨m, hmmem, hm⟩ := List.mem_map.mp hl
    obtain ⟨p, hpmem, hp⟩ := List.mem_map.mp hmmem
    refine ⟨?_, ?_, ?_⟩
    · intro hnl
      rw [← hm] at hnl
      have h1 : '\n' ∈ m := mem_cleanLine_mem hnl
      rw [← hp] at h1
      have h2 : '\n' ∈ p := by
        unfold stripCr at h1
        by_cases hcr : p.getLast? = some '\r'
        · rw [if_pos hcr] at h1
          exact (List.dropLast_sublist p).mem h1
        · rwa [if_neg hcr] at h1
      have h3 : p ∈ splitOnNl (stripAnsi x) := by
        unfold splitLinesT at hpmem
        by_cases hc : (splitOnNl (stripAnsi x)).getLast? = some ([] : List Char)
        · rw [if_pos hc] at hpmem
          exact (List.dropLast_sublist _).mem hpmem
        · rwa [if_neg hc] at hpmem
      exact mem_splitOnNl_no_nl h3 h2
    · rw [← hm]
      exact (cleanLine_fixed isA isW hWr m).1
    · rw [← hm]
      exact (cleanLine_fixed isA isW hWr m).2
  cases hL2 : L with
  | nil =>
    rw [hy, hL2]
    show cmd_audit_sanitize isA isW (joinLines []) = joinLines []
    rw [show joinLines [] = [] from rfl, hsempty]
  | cons l0 ls =>
    obtain ⟨lastl, hlast⟩ := getLast?_of_ne_nil (show L ≠ [] by rw [hL2]; simp)
    by_cases hle : lastl = []
    · by_cases hlen : 2 ≤ L.length
      · exfalso
        apply hx
        rw [hy]
        exact joinLines_getLast_nl (hle ▸ hlast) hlen
      · have hls : ls = [] := by
          rw [hL2] at hlen
          cases ls with
          | nil => rfl
          | cons _ _ => exact absurd (by simp) hlen
        have hl0 : l0 = [] := by
          rw [hL2, hls] at hlast
          simp at hlast
          rw [hlast, hle]
        rw [hy, hL2, hls, hl0]
        show cmd_audit_sanitize isA isW (joinLines [[]]) = joinLines [[]]
        rw [show joinLines [[]] = ([] : List Char) from rfl, hsempty]
    · have hLne : L ≠ [] := by rw [hL2]; simp
      have hnlL : ∀ l ∈ L, '\n' ∉ l := fun l hl => (hprops l hl).1
      have hsplit : splitOnNl (joinLines L) = L := joinLines_splitOnNl hLne hnlL
      have hbr : '[' ∉ joinLines L := by
        intro hbrmem
        have := hmem x '[' (by rw [hy]; exact hbrmem)
        rw [hAbr, hWbr] at this
        simp at this
      have hstrip : stripAnsi (joinLines L) = joinLines L := by
        unfold stripAnsi
        rw [replChars_no_occurrence (show '[' ∈ frag90 by decide) [] hbr,
          replChars_no_occurrence (show '[' ∈ frag39 by decide) [] hbr]
      rw [hy]
      unfold cmd_audit_sanitize rustLines splitLinesT
      rw [hstrip, hsplit, if_neg (by rw [hlast]; simp [hle])]
      have hmapid : ∀ l ∈ L, cleanLine isA isW (stripCr l) = l := by
        intro l hl
        rw [cleanLine_stripCr isA isW hWr, (hprops l hl).2.1]
      rw [List.map_map]
      have : L.map (cleanLine isA isW ∘ stripCr) = L := by
        rw [show L.map (cleanLine isA isW ∘ stripCr)
            = L.map (fun l => cleanLine isA isW (stripCr l)) from rfl]
        rw [List.map_congr_left hmapid]
        simp
      rw [this]

/-- Counterexample to C7 as stated: sanitizing `"a\n\n"` yields `"a\n"`, and
sanitizing that output again yields `"a"`, so sanitization is not idempotent
on its own output. -/
theorem c7_sanitize_counterexample :
    cmd_audit_sanitize isAlnumAscii isWsAscii ['a', '\n', '\n'] = ['a', '\n']
  ∧ cmd_audit_sanitize isAlnumAscii isWsAscii
      (cmd_audit_sanitize isAlnumAscii isWsAscii ['a', '\n', '\n'])
      ≠ cmd_audit_sanitize isAlnumAscii isWsAscii ['a', '\n', '\n'] := by
  have h1 : cmd_audit_sanitize isAlnumAscii isWsAscii ['a', '\n', '\n'] = ['a', '\n'] := by
    simp [cmd_audit_sanitize, stripAnsi, replChars, frag90, frag39, rustLines, splitLinesT,
      splitOnNl, stripCr, cleanLine, trimWs, joinLines, isAlnumAscii, isWsAscii,
      List.dropWhile, List.filter]
  have h2 : cmd_audit_sanitize isAlnumAscii isWsAscii ['a', '\n'] = ['a'] := by
    simp [cmd_audit_sanitize, stripAnsi, replChars, frag90, frag39, rustLines, splitLinesT,
      splitOnNl, stripCr, cleanLine, trimWs, joinLines, isAlnumAscii, isWsAscii,
      List.dropWhile, List.filter]
  refine ⟨h1, ?_⟩
  rw [h1, h2]
  decide

/-- Witness for the amended C7 at a concrete input not ending in a newline. -/
theorem c7_sanitize_idempotent_witness :
    (cmd_audit_sanitize isAlnumAscii isWsAscii ['a', ' ', 'b']).getLast? ≠ some '\n'
  ∧ cmd_audit_sanitize isAlnumAscii isWsAscii
      (cmd_audit_sanitize isAlnumAscii isWsAscii ['a', ' ', 'b'])
      = cmd_audit_sanitize isAlnumAscii isWsAscii ['a', ' ', 'b']
  ∧ ('!' ∈ cmd_audit_sanitize isAlnumAscii isWsAscii ['a', '!', 'b'] → False) := by
  have hv : cmd_audit_sanitize isAlnumAscii isWsAscii ['a', ' ', 'b'] = ['a', ' ', 'b'] := by
    simp [cmd_audit_sanitize, stripAnsi, replChars, frag90, frag39, rustLines, splitLinesT,
      splitOnNl, stripCr, cleanLine, trimWs, joinLines, isAlnumAscii, isWsAscii,
      List.dropWhile, List.filter]
  refine ⟨by rw [hv]; decide, ?_, ?_⟩
  · exact (c7_sanitize_idempotent isAlnumAscii isWsAscii (by decide) (by decide) (by decide)
      (by decide)).1 ['a', ' ', 'b'] (by rw [hv]; decide)
  · intro hmem
    have := (c7_sanitize_idempotent isAlnumAscii isWsAscii (by decide) (by decide) (by decide)
      (by decide)).2 ['a', '!', 'b'] '!' hmem
    revert this
    decide

/-- Rust `Path::strip_prefix(root)`. -/
def stripRoot (root p : FPath) : Option FPath :=
  if root.isPrefixOf p then some (p.drop root.length) else none

/-- Include pattern `"**/*/package.json"` of `list_package_dirs`
(main.rs:256): at least one directory component, then a component equal to
`package.json` (`**` matches zero or more leading components, `*` exactly
one). -/
def pkgInclude (rel : FPath) : Bool :=
  decide (2 ≤ rel.length) && decide (rel.getLast? = some "package.json")

/-- The negative patterns `"!**/node_modules/*"` (a component `node_modules`
directly above the final component) and `"!.git/*"` (exactly two components,
the first `.git`) of `list_package_dirs` (main.rs:256). -/
def negMatch (rel : FPath) : Bool :=
  (decide (2 ≤ rel.length) && decide (rel[rel.length - 2]? = some "node_modules"))
  || (decide (rel.length = 2) && decide (rel.head? = some ".git"))

/-- The walker prunes a whole subtree when a directory matches a negative
pattern, so an entry is skipped iff some nonempty prefix of its relative path
matches a negative pattern. -/
def excludedWalk (rel : FPath) : Bool :=
  (List.range (rel.length + 1)).any (fun k => negMatch (rel.take k))

/-- Function `list_package_dirs` (main.rs:250-273): walk the tree under `root` (the
association-list order of `fs` is the walk order) with include pattern
`"**/*/package.json"` and negative patterns `"!**/node_modules/*"` and
`"!.git/*"`; map each matched entry to its parent directory paired with the
parent's root-relative rendering; finally insert `(root, "_root_")` at
position 0. -/
def list_package_dirs (fs : Fs) (root : FPath) : List (FPath × String) :=
  (root, "_root_") ::
    fs.filterMap (fun e =>
      match stripRoot root e.1 with
      | some rel =>
        if pkgInclude rel && !excludedWalk rel then
          some (root ++ rel.dropLast, pathStr rel.dropLast)
        else none
      | none => none)

/-- Modelled from the claim's words (C2, spec §4.1/§8): the relative paths of
manifest entries, "excluding any path beneath a dependency-cache directory or
a version-control directory" — both read at any depth. -/
def claimManifestRels (fs : Fs) (root : FPath) : List FPath :=
  fs.filterMap (fun e =>
    match stripRoot root e.1 with
    | some rel =>
      if decide (2 ≤ rel.length) && decide (rel.getLast? = some "package.json")
          && !decide ("node_modules" ∈ rel.dropLast) && !decide (".git" ∈ rel.dropLast) then
        some rel
      else none
    | none => none)

/-- The amended claim side of C2: as `claimManifestRels`, but the
version-control exclusion applies only to a top-level `.git` directory
(this is what the glob `"!.git/*"` prunes). -/
def amendedManifestRels (fs : Fs) (root : FPath) : List FPath :=
  fs.filterMap (fun e =>
    match stripRoot root e.1 with
    | some rel =>
      if decide (2 ≤ rel.length) && decide (rel.getLast? = some "package.json")
          && !decide ("node_modules" ∈ rel.dropLast) && !decide (rel.head? = some ".git") then
        some rel
      else none
    | none => none)

theorem bool_eq_of_iff {a b : Bool} (h : a = true ↔ b = true) : a = b := by
  cases a <;> cases b
  · rfl
  · exact absurd (h.mpr rfl) (by simp)
  · exact absurd (h.mp rfl) (by simp)
  · rfl

theorem head?_take {α : Type} {k : Nat} (hk : 1 ≤ k) (l : List α) :
    (l.take k).head? = l.head? := by
  cases l with
  | nil => simp
  | cons a r =>
    cases k with
    | zero => omega
    | succ k => simp

theorem excludedWalk_iff {rel : FPath} (hlen : 2 ≤ rel.length) :
    excludedWalk rel = true ↔
      ("node_modules" ∈ rel.dropLast ∨ rel.head? = some ".git") := by
  unfold excludedWalk negMatch
  rw [List.any_eq_true]
  constructor
  · rintro ⟨k, _, hneg⟩
    rw [Bool.or_eq_true] at hneg
    rcases hneg with h | h
    · rw [Bool.and_eq_true, decide_eq_true_eq, decide_eq_true_eq] at h
      obtain ⟨h2, hget⟩ := h
      left
      have hlen2 : (rel.take k).length ≤ rel.length := by
        rw [List.length_take]
        omega
      have hkge : (rel.take k).length ≤ k := by
        rw [List.length_take]
        omega
      have hidx : (rel.take k).length - 2 < rel.length - 1 := by omega
      have hrel : rel[(rel.take k).length - 2]? = some "node_modules" := by
        rw [List.getElem?_take, if_pos (by omega)] at hget
        exact hget
      rw [List.dropLast_eq_take, List.mem_iff_getElem?]
      refine ⟨(rel.take k).length - 2, ?_⟩
      rw [List.getElem?_take, if_pos hidx]
      exact hrel
    · rw [Bool.and_eq_true, decide_eq_true_eq, decide_eq_true_eq] at h
      obtain ⟨h2, hhead⟩ := h
      right
      have hk1 : 1 ≤ k := by
        by_contra hk0
        have : k = 0 := by omega
        subst this
        simp at h2
      rw [← head?_take hk1 rel]
      exact hhead
  · rintro (h | h)
    · rw [List.dropLast_eq_take, List.mem_iff_getElem?] at h
      obtain ⟨i, hi⟩ := h
      have hilt : i < rel.length - 1 := by
        by_contra hge
        rw [List.getElem?_take, if_neg (by omega)] at hi
        exact Option.noConfusion hi
      have hrel : rel[i]? = some "node_modules" := by
        rw [List.getElem?_take, if_pos hilt] at hi
        exact hi
      refine ⟨i + 2, ?_, ?_⟩
      · rw [List.mem_range]
        omega
      · rw [Bool.or_eq_true]
        left
        rw [Bool.and_eq_true, decide_eq_true_eq, decide_eq_true_eq]
        have hlt : (rel.take (i + 2)).length = i + 2 := by
          rw [List.length_take]
          omega
        refine ⟨by omega, ?_⟩
        rw [hlt, Nat.add_sub_cancel, List.getElem?_take, if_pos (by omega)]
        exact hrel
    · refine ⟨2, ?_, ?_⟩
      · rw [List.mem_range]
        omega
      · rw [Bool.or_eq_true]
        right
        rw [Bool.and_eq_true, decide_eq_true_eq, decide_eq_true_eq]
        refine ⟨by rw [List.length_take]; omega, ?_⟩
        rw [head?_take (by omega) rel]
        exact h

theorem pkg_condition_eq (rel : FPath) :
    (pkgInclude rel && !excludedWalk rel)
      = (decide (2 ≤ rel.length) && decide (rel.getLast? = some "package.json")
          && !decide ("node_modules" ∈ rel.dropLast)
          && !decide (rel.head? = some ".git")) := by
  apply bool_eq_of_iff
  simp only [pkgInclude, Bool.and_eq_true, Bool.not_eq_true', decide_eq_true_eq,
    decide_eq_false_iff_not, and_assoc]
  constructor
  · rintro ⟨hlen, hlast, hex⟩
    have hnot : ¬("node_modules" ∈ rel.dropLast ∨ rel.head? = some ".git") := by
      rw [← excludedWalk_iff hlen, hex]
      simp
    push_neg at hnot
    exact ⟨hlen, hlast, hnot.1, hnot.2⟩
  · rintro ⟨hlen, hlast, hnm, hgit⟩
    refine ⟨hlen, hlast, ?_⟩
    rw [Bool.eq_false_iff]
    intro hex
    rcases (excludedWalk_iff hlen).mp hex with h | h
    · exact hnm h
    · exact hgit h

/-- C2 (amended): package discovery returns the root entry, labelled
`"_root_"`, at position 0, followed by one entry per manifest path (in walk
order), each labelled with its parent directory's root-relative path; so the
result length is exactly `k + 1` where `k` counts the manifest paths.
Amendment forced by the counterexample: the claim's version-control exclusion
"at any depth" holds only for a top-level `.git` directory — the glob
`"!.git/*"` does not prune a nested `.git`; the dependency-cache exclusion is
at any depth, as claimed. -/
theorem c2_package_discovery (fs : Fs) (root : FPath) :
    list_package_dirs fs root
      = (root, "_root_")
          :: (amendedManifestRels fs root).map
              (fun rel => (root ++ rel.dropLast, pathStr rel.dropLast))
  ∧ (list_package_dirs fs root).length = (amendedManifestRels fs root).length + 1
  ∧ (list_package_dirs fs root).head? = some (root, "_root_") := by
  have hmain : list_package_dirs fs root
      = (root, "_root_")
          :: (amendedManifestRels fs root).map
              (fun rel => (root ++ rel.dropLast, pathStr rel.dropLast)) := by
    unfold list_package_dirs amendedManifestRels
    congr 1
    rw [List.map_filterMap]
    congr 1
    funext e
    cases hm : stripRoot root e.1 with
    | none => rfl
    | some rel =>
      simp only [pkg_condition_eq rel]
      by_cases hc : (decide (2 ≤ rel.length) && decide (rel.getLast? = some "package.json")
          && !decide ("node_modules" ∈ rel.dropLast) && !decide (rel.head? = some ".git")) = true
      · rw [if_pos hc, if_pos hc]
        rfl
      · rw [if_neg hc, if_neg hc]
        rfl
  refine ⟨hmain, ?_, ?_⟩
  · rw [hmain]
    simp
  · rw [hmain]
    rfl

/-- Concrete tree for the C2 counterexample: a manifest inside a nested
`.git` directory. -/
def c2Fs : Fs :=
  [((["r"], FsEntry.dir)), ((["r", "sub"], FsEntry.dir)),
   ((["r", "sub", ".git"], FsEntry.dir)),
   ((["r", "sub", ".git", "package.json"], FsEntry.file "j"))]

/-- Counterexample to C2 as stated: with one manifest under a nested `.git`
directory, the claim (which excludes `.git` at any depth) predicts `0 + 1 = 1`
entries, but the code returns 2 — the nested `.git` package is listed. -/
theorem c2_package_discovery_counterexample :
    (claimManifestRels c2Fs ["r"]).length + 1 = 1
  ∧ (list_package_dirs c2Fs ["r"]).length = 2
  ∧ list_package_dirs c2Fs ["r"]
      = [((["r"], "_root_")), ((["r", "sub", ".git"], "sub/.git"))] := by
  refine ⟨by decide, by decide, by decide⟩

/-- Include pattern `"**/*.*"` of `list_audit_files` (main.rs:234): any entry
(file or directory) whose final name component contains a `'.'`. -/
def dotInLast (rel : FPath) : Bool :=
  match rel.getLast? with
  | some s => decide ('.' ∈ s.data)
  | none => false

/-- Function `list_audit_files` (main.rs:230-248): walk the tree under `root` (the
association-list order of `fs` is the walk order) with the single include
pattern `"**/*.*"`, pairing each matched entry's path with its root-relative
rendering. -/
def list_audit_files (fs : Fs) (root : FPath) : List (FPath × String) :=
  fs.filterMap (fun e =>
    match stripRoot root e.1 with
    | some rel =>
      if decide (1 ≤ rel.length) && dotInLast rel then some (e.1, pathStr rel) else none
    | none => none)

/-- C6 (amended): `list_audit_files` enumerates exactly the entries strictly
below the root — whether regular files or directories — whose final name
component contains a dot, each paired with its root-relative label.
Amendments forced by the counterexample: the glob `"**/*.*"` misses files
whose name has no dot, and it matches directories as well as files. -/
theorem c6_list_audit_files_mem (fs : Fs) (root : FPath) (p : FPath) (s : String) :
    (p, s) ∈ list_audit_files fs root ↔
      ∃ v, (p, v) ∈ fs ∧ root.isPrefixOf p = true ∧ p.drop root.length ≠ []
        ∧ dotInLast (p.drop root.length) = true ∧ s = pathStr (p.drop root.length) := by
  unfold list_audit_files
  rw [List.mem_filterMap]
  constructor
  · rintro ⟨e, hmem, hsome⟩
    cases hm : stripRoot root e.1 with
    | none =>
      rw [hm] at hsome
      exact Option.noConfusion hsome
    | some rel =>
      rw [hm] at hsome
      have hsome' : (if (decide (1 ≤ rel.length) && dotInLast rel) = true
          then some (e.1, pathStr rel) else none) = some (p, s) := hsome
      unfold stripRoot at hm
      by_cases hpre : root.isPrefixOf e.1
      · rw [if_pos hpre] at hm
        by_cases hc : (decide (1 ≤ rel.length) && dotInLast rel) = true
        · rw [if_pos hc] at hsome'
          have he1 : e.1 = p := congrArg Prod.fst (Option.some.inj hsome')
          have hs : s = pathStr rel := (congrArg Prod.snd (Option.some.inj hsome')).symm
          rw [Bool.and_eq_true, decide_eq_true_eq] at hc
          have hrel : rel = p.drop root.length := by
            rw [← he1]
            exact (Option.some.inj hm).symm
          refine ⟨e.2, ?_, he1 ▸ hpre, ?_, ?_, ?_⟩
          · rw [← he1]
            exact hmem
          · rw [← hrel]
            intro hz
            rw [hz] at hc
            simp at hc
          · rw [← hrel]
            exact hc.2
          · rw [← hrel]
            exact hs
        · rw [if_neg hc] at hsome'
          exact Option.noConfusion hsome'
      · rw [if_neg hpre] at hm
        exact Option.noConfusion hm
  · rintro ⟨v, hmem, hpre, hne, hdot, hs⟩
    refine ⟨(p, v), hmem, ?_⟩
    show (match stripRoot root p with
      | some rel =>
        if decide (1 ≤ rel.length) && dotInLast rel then some (p, pathStr rel) else none
      | none => none) = some (p, s)
    unfold stripRoot
    rw [if_pos hpre]
    have h1 : decide (1 ≤ (p.drop root.length).length) = true := by
      rw [decide_eq_true_eq]
      cases hd : p.drop root.length with
      | nil => exact absurd hd hne
      | cons a r => simp [hd]
    simp only [h1, hdot, Bool.and_self, if_pos]
    rw [hs]

/-- Concrete tree for the C6 counterexample: a dot-less regular file and a
dot-named directory under the root. -/
def c6Fs : Fs :=
  [((["r"], FsEntry.dir)), ((["r", "README"], FsEntry.file "x")),
   ((["r", "sub.d"], FsEntry.dir))]

/-- Counterexample to C6 as stated: the regular file `README` is not listed
(its name has no dot) and the directory `sub.d` is listed (its name has one),
so the listing is neither all files nor only files. -/
theorem c6_list_audit_files_counterexample :
    Fs.isFile c6Fs ["r", "README"] = true
  ∧ (((["r", "README"] : FPath), "README") ∉ list_audit_files c6Fs ["r"])
  ∧ Fs.isDir c6Fs ["r", "sub.d"] = true
  ∧ (((["r", "sub.d"] : FPath), "sub.d") ∈ list_audit_files c6Fs ["r"]) := by
  refine ⟨by decide, by decide, by decide, by decide⟩

/-- A parsed JSON value — the post-`serde_json` representation of a manifest
(keys of a parsed object are distinct, `serde_json::Value`). -/
inductive JsonVal where
  | null
  | bool (b : Bool)
  | num (n : Int)
  | str (s : String)
  | arr (xs : List JsonVal)
  | obj (fields : List (String × JsonVal))

/-- Library `serde_json` `Value` indexing `json["__version__"]` (main.rs:164): field
lookup on an object, `Null` for a missing field or a non-object. -/
def jIndex (j : JsonVal) (key : String) : JsonVal :=
  match j with
  | .obj fields =>
    match fields.lookup key with
    | some v => v
    | none => .null
  | _ => .null

/-- Function `get_drop_name` (main.rs:159-169) after the manifest file has been read
and parsed (the file read and `serde_json` parse are the I/O wrapper): the
`"__version__"` field when it is a JSON string, else `"DROP-UNKNOWN"`. -/
def get_drop_name (j : JsonVal) : String :=
  match jIndex j "__version__" with
  | .str s => s
  | _ => "DROP-UNKNOWN"

/-- The audit directory name `format!("{}-AUDIT", drop_name)` (main.rs:74). -/
def audit_name (drop_name : String) : String :=
  drop_name ++ "-AUDIT"

/-- C8: the drop name is the root manifest's top-level `"__version__"` field
when present and a JSON string, and the sentinel `"DROP-UNKNOWN"` when the
field is absent or not a string; the audit output directory is named
`<dropName>-AUDIT` — in particular `"__version__": "7.2.0"` gives
`7.2.0-AUDIT`. -/
theorem c8_drop_name (j : JsonVal) :
    (∀ s, jIndex j "__version__" = JsonVal.str s →
        get_drop_name j = s ∧ audit_name (get_drop_name j) = s ++ "-AUDIT")
  ∧ ((∀ s, jIndex j "__version__" ≠ JsonVal.str s) →
        get_drop_name j = "DROP-UNKNOWN")
  ∧ audit_name (get_drop_name (JsonVal.obj [("__version__", JsonVal.str "7.2.0")]))
      = "7.2.0-AUDIT" := by
  refine ⟨?_, ?_, rfl⟩
  · intro s hs
    unfold get_drop_name
    rw [hs]
    exact ⟨rfl, rfl⟩
  · intro h
    unfold get_drop_name
    cases hj : jIndex j "__version__" with
    | str s => exact absurd hj (h s)
    | null => rfl
    | bool b => rfl
    | num n => rfl
    | arr xs => rfl
    | obj f => rfl

/-- Witness for C8 on concrete manifests: a string `"__version__"`, a missing
field, and a non-string `"__version__"`. -/
theorem c8_drop_name_witness :
    get_drop_name (JsonVal.obj [("__version__", JsonVal.str "7.2.0")]) = "7.2.0"
  ∧ get_drop_name (JsonVal.obj [("name", JsonVal.str "x")]) = "DROP-UNKNOWN"
  ∧ get_drop_name (JsonVal.obj [("__version__", JsonVal.num 3)]) = "DROP-UNKNOWN" :=
  ⟨((c8_drop_name (JsonVal.obj [("__version__", JsonVal.str "7.2.0")])).1 "7.2.0" rfl).1,
   (c8_drop_name (JsonVal.obj [("name", JsonVal.str "x")])).2.1
     (fun _ h => JsonVal.noConfusion h),
   (c8_drop_name (JsonVal.obj [("__version__", JsonVal.num 3)])).2.1
     (fun _ h => JsonVal.noConfusion h)⟩

theorem find_set (fs : Fs) (q : FPath) (v : FsEntry) (p : FPath) :
    Fs.find (Fs.set fs q v) p = if p = q then some v else Fs.find fs p := by
  induction fs with
  | nil =>
    by_cases hp : p = q
    · subst hp
      simp [Fs.set, Fs.find]
    · have hqp : ¬ q = p := fun h => hp h.symm
      simp [Fs.set, Fs.find, hp, hqp]
  | cons e rest ih =>
    unfold Fs.set
    by_cases he : e.1 = q
    · rw [if_pos he]
      by_cases hp : p = q
      · subst hp
        simp [Fs.find]
      · have hqp : ¬ q = p := fun h => hp h.symm
        have hep : ¬ e.1 = p := fun h => hp (h.symm.trans he)
        simp [Fs.find, hp, hqp, hep]
    · rw [if_neg he]
      by_cases hep : e.1 = p
      · have hpq : ¬ p = q := fun h => he (hep.trans h)
        simp [Fs.find, hep, hpq]
      · simp [Fs.find, hep, ih]

theorem isFile_set_file {fs : Fs} {p q : FPath} {c : String}
    (h : Fs.isFile fs p = true ∨ p = q) :
    Fs.isFile (Fs.set fs q (.file c)) p = true := by
  unfold Fs.isFile
  rw [find_set]
  by_cases hp : p = q
  · simp [hp]
  · rw [if_neg hp]
    rcases h with h | h
    · unfold Fs.isFile at h
      exact h
    · exact absurd h hp

/-- Rust `str::replace("/", "-")` followed by
`format!("{}-package-lock.json", _)` (main.rs:124): the flattened destination
file name for a package label. -/
def flatLockName (name : String) : String :=
  String.mk (replChars ['/'] ['-'] name.data) ++ "-package-lock.json"

/-- The package-lock copy loop of `main` (main.rs:121-127): for each package
`(dir, name)`, `fs::copy(dir/package-lock.json, audit_dir/flattened)`;
`fs::copy` fails when the source is not a regular file, and the `.expect`
turns that failure into a panic that aborts the run (modelled as `.error`). -/
def copyPackageLocks (audit_dir : FPath) : Fs → List (FPath × String) → Except String Fs
  | fs, [] => .ok fs
  | fs, (dir, name) :: rest =>
    match fs.find (dir ++ ["package-lock.json"]) with
    | some (.file content) =>
      copyPackageLocks audit_dir
        (fs.set (audit_dir ++ [flatLockName name]) (.file content)) rest
    | _ => .error "Fail to copy a package-lock"

theorem copyPackageLocks_preserves (audit_dir : FPath) :
    ∀ (dirs : List (FPath × String)) (fs fs' : Fs),
      copyPackageLocks audit_dir fs dirs = .ok fs' →
      ∀ p, Fs.isFile fs p = true → Fs.isFile fs' p = true := by
  intro dirs
  induction dirs with
  | nil =>
    intro fs fs' hok p hp
    have : fs = fs' := Except.ok.inj hok
    exact this ▸ hp
  | cons d rest ih =>
    intro fs fs' hok p hp
    unfold copyPackageLocks at hok
    cases hf : fs.find (d.1 ++ ["package-lock.json"]) with
    | none =>
      rw [hf] at hok
      exact Except.noConfusion hok
    | some v =>
      cases v with
      | file content =>
        rw [hf] at hok
        exact ih _ _ hok p (isFile_set_file (Or.inl hp))
      | dir =>
        rw [hf] at hok
        exact Except.noConfusion hok
      | tarFile es =>
        rw [hf] at hok
        exact Except.noConfusion hok
      | gzFile es =>
        rw [hf] at hok
        exact Except.noConfusion hok

/-- C4 (amended): when every discovered package directory contains a
`package-lock.json` regular file, the copy loop succeeds and afterwards the
audit output directory holds one flattened `<label with '/' → '-'>-package-lock.json`
file per package.  Amendment forced by the counterexample: a package whose
directory lacks a lock file DOES abort the run — `fs::copy(...).expect(...)`
panics — rather than being skipped. -/
theorem c4_copy_locks (audit_dir : FPath) (dirs : List (FPath × String)) :
    ∀ (fs : Fs),
      (∀ d ∈ dirs, Fs.isFile fs (d.1 ++ ["package-lock.json"]) = true) →
      ∃ fs', copyPackageLocks audit_dir fs dirs = .ok fs'
        ∧ ∀ d ∈ dirs, Fs.isFile fs' (audit_dir ++ [flatLockName d.2]) = true := by
  induction dirs with
  | nil =>
    intro fs _
    exact ⟨fs, rfl, by simp⟩
  | cons d rest ih =>
    intro fs h
    have hd := h d (List.mem_cons_self _ _)
    unfold Fs.isFile at hd
    cases hf : fs.find (d.1 ++ ["package-lock.json"]) with
    | none =>
      rw [hf] at hd
      exact Bool.noConfusion hd
    | some v =>
      cases v with
      | file content =>
        have hrest : ∀ d' ∈ rest,
            Fs.isFile (fs.set (audit_dir ++ [flatLockName d.2]) (.file content))
              (d'.1 ++ ["package-lock.json"]) = true := by
          intro d' hd'
          exact isFile_set_file (Or.inl (h d' (List.mem_cons_of_mem _ hd')))
        obtain ⟨fs', hok, hall⟩ := ih _ hrest
        refine ⟨fs', ?_, ?_⟩
        · unfold copyPackageLocks
          rw [hf]
          exact hok
        · intro d' hd'
          rcases List.mem_cons.mp hd' with hd' | hd'
          · subst hd'
            exact copyPackageLocks_preserves audit_dir rest _ fs' hok _
              (isFile_set_file (Or.inr rfl))
          · exact hall d' hd'
      | dir =>
        rw [hf] at hd
        exact Bool.noConfusion hd
      | tarFile es =>
        rw [hf] at hd
        exact Bool.noConfusion hd
      | gzFile es =>
        rw [hf] at hd
        exact Bool.noConfusion hd

/-- Concrete state for the C4 counterexample: the sole package has a manifest
but no lock file. -/
def c4BadFs : Fs :=
  [((["r"], FsEntry.dir)), ((["r", "package.json"], FsEntry.file "j"))]

/-- Counterexample to C4 as stated: a package without `package-lock.json`
makes the copy step return the `"Fail to copy a package-lock"` panic, aborting
the run, instead of being skipped. -/
theorem c4_copy_locks_counterexample :
    copyPackageLocks ["r", ".audit", "D-AUDIT"] c4BadFs [((["r"] : FPath), "_root_")]
      = .error "Fail to copy a package-lock" := by
  rfl

/-- Concrete state for the C4 witness: both packages have lock files. -/
def c4GoodFs : Fs :=
  [((["r"], FsEntry.dir)), ((["r", "package-lock.json"], FsEntry.file "L0")),
   ((["r", "a"], FsEntry.dir)), ((["r", "a", "package-lock.json"], FsEntry.file "L1"))]

/-- Witness for the amended C4 at a concrete two-package state. -/
theorem c4_copy_locks_witness :
    (∀ d ∈ [((["r"] : FPath), "_root_"), ((["r", "a"] : FPath), "a")],
        Fs.isFile c4GoodFs (d.1 ++ ["package-lock.json"]) = true)
  ∧ ∃ fs', copyPackageLocks ["r", ".audit", "D-AUDIT"] c4GoodFs
        [((["r"] : FPath), "_root_"), ((["r", "a"] : FPath), "a")] = .ok fs'
      ∧ ∀ d ∈ [((["r"] : FPath), "_root_"), ((["r", "a"] : FPath), "a")],
          Fs.isFile fs' (["r", ".audit", "D-AUDIT"] ++ [flatLockName d.2]) = true :=
  ⟨by decide,
   c4_copy_locks ["r", ".audit", "D-AUDIT"]
     [((["r"] : FPath), "_root_"), ((["r", "a"] : FPath), "a")] c4GoodFs (by decide)⟩

/-- The `tar::Builder` append loop of `main` (main.rs:137-142), with the
builder state as the list of (entry name, entry bytes) appended so far: each
listed file is appended under the name `<audit_name>/<label>`;
`File::open(file).unwrap()` panics when a listed path is not a regular file
(modelled as `.error`). -/
def appendAuditFiles (fs : Fs) (audit_nm : String) :
    List (FPath × String) → List (String × String) →
      Except String (List (String × String))
  | [], acc => .ok acc
  | (f, name) :: rest, acc =>
    match fs.find f with
    | some (.file content) =>
      appendAuditFiles fs audit_nm rest (acc ++ [(audit_nm ++ "/" ++ name, content)])
    | _ => .error "failed to open listed file"

/-- The tar phase of `main` (main.rs:131-142): the entries written to the
`<audit_name>.tar` archive are the listed audit files, appended in order. -/
def tarEntries (fs : Fs) (audit_dir : FPath) (audit_nm : String) :
    Except String (List (String × String)) :=
  appendAuditFiles fs audit_nm (list_audit_files fs audit_dir) []

theorem appendAuditFiles_ok (fs : Fs) (audit_nm : String) :
    ∀ (xs : List (FPath × String)) (acc : List (String × String)),
      (∀ e ∈ xs, Fs.isFile fs e.1 = true) →
      appendAuditFiles fs audit_nm xs acc
        = .ok (acc ++ xs.map (fun e => (audit_nm ++ "/" ++ e.2, Fs.contentOf fs e.1))) := by
  intro xs
  induction xs with
  | nil =>
    intro acc _
    simp [appendAuditFiles]
  | cons x rest ih =>
    intro acc h
    obtain ⟨xf, xn⟩ := x
    have hx := h (xf, xn) (List.mem_cons_self _ _)
    unfold Fs.isFile at hx
    cases hf : fs.find xf with
    | none =>
      rw [hf] at hx
      exact Bool.noConfusion hx
    | some v =>
      cases v with
      | file content =>
        unfold appendAuditFiles
        rw [hf]
        have hred : (match some (FsEntry.file content) with
            | some (FsEntry.file content) =>
                appendAuditFiles fs audit_nm rest (acc ++ [(audit_nm ++ "/" ++ xn, content)])
            | _ => (Except.error "failed to open listed file" :
                Except String (List (String × String))))
            = appendAuditFiles fs audit_nm rest (acc ++ [(audit_nm ++ "/" ++ xn, content)]) :=
          rfl
        rw [hred, ih (acc ++ [(audit_nm ++ "/" ++ xn, content)])
          (fun e he => h e (List.mem_cons_of_mem _ he))]
        have hco : Fs.contentOf fs xf = content := by
          unfold Fs.contentOf
          rw [hf]
        simp [hco]
      | dir =>
        rw [hf] at hx
        exact Bool.noConfusion hx
      | tarFile es =>
        rw [hf] at hx
        exact Bool.noConfusion hx
      | gzFile es =>
        rw [hf] at hx
        exact Bool.noConfusion hx

/-- C9: when every entry listed under the audit output directory is a regular
file, the uncompressed archive receives exactly one entry per listed file, in
listing order, and each entry's name is `<audit_name>/<relativeLabel>` paired
with that file's bytes — so extraction reproduces the
`<dropName>-AUDIT/...` layout. -/
theorem c9_tar_entries (fs : Fs) (audit_dir : FPath) (audit_nm : String)
    (h : ∀ e ∈ list_audit_files fs audit_dir, Fs.isFile fs e.1 = true) :
    tarEntries fs audit_dir audit_nm
      = .ok ((list_audit_files fs audit_dir).map
          (fun e => (audit_nm ++ "/" ++ e.2, Fs.contentOf fs e.1))) := by
  unfold tarEntries
  rw [appendAuditFiles_ok fs audit_nm _ [] h]
  simp

/-- Concrete state for the C9 witness: an audit directory holding the audit
text file and one flattened lock file. -/
def c9Fs : Fs :=
  [((["r"], FsEntry.dir)), ((["r", ".audit"], FsEntry.dir)),
   ((["r", ".audit", "D-AUDIT"], FsEntry.dir)),
   ((["r", ".audit", "D-AUDIT", "_audit.txt"], FsEntry.file "A")),
   ((["r", ".audit", "D-AUDIT", "_root_-package-lock.json"], FsEntry.file "L"))]

/-- Witness for C9 at a concrete audit directory. -/
theorem c9_tar_entries_witness :
    (∀ e ∈ list_audit_files c9Fs ["r", ".audit", "D-AUDIT"], Fs.isFile c9Fs e.1 = true)
  ∧ tarEntries c9Fs ["r", ".audit", "D-AUDIT"] "D-AUDIT"
      = .ok ((list_audit_files c9Fs ["r", ".audit", "D-AUDIT"]).map
          (fun e => ("D-AUDIT" ++ "/" ++ e.2, Fs.contentOf c9Fs e.1)))
  ∧ (list_audit_files c9Fs ["r", ".audit", "D-AUDIT"]).map
        (fun e => ("D-AUDIT" ++ "/" ++ e.2, Fs.contentOf c9Fs e.1))
      = [("D-AUDIT/_audit.txt", "A"),
         ("D-AUDIT/_root_-package-lock.json", "L")] :=
  ⟨by decide,
   c9_tar_entries c9Fs ["r", ".audit", "D-AUDIT"] "D-AUDIT" (by decide),
   by decide⟩

/-- The run configuration parsed from the CLI (argv.rs): positional `PATH`
(default `"."`), `--clean`, `--no-install` (negated), `--no-audit`
(negated). -/
structure RunConfig where
  root : FPath
  doClean : Bool
  doInstall : Bool
  doAudit : Bool

/-- External collaborators of `main`: the `serde_json` parser and the output
of the `npm audit` subprocess, plus the Unicode character classes used by
sanitization. -/
structure Ext where
  parse : String → Option JsonVal
  npmAuditOut : FPath → List Char
  isA : Char → Bool
  isW : Char → Bool

/-- The observable outcome of a run.  Only the validation error message is
tracked in `printed` (the per-phase progress lines do not matter to any
claim); `npmCalls` records each subprocess invocation `(directory,
subcommand)` in order.  A `main` return is exit code 0; a panic is the
`.error` branch of the surrounding `Except`. -/
structure RunResult where
  exitCode : Nat
  printed : List String
  fs : Fs
  npmCalls : List (FPath × String)

/-- Rust `std::fs::create_dir_all`: create every missing prefix of `p` as a
directory; fails when a prefix exists as a non-directory. -/
def createDirAll (fs : Fs) (p : FPath) : Except String Fs :=
  (List.range p.length).foldl
    (fun efs k => do
      let fs ← efs
      let q := p.take (k + 1)
      match fs.find q with
      | some .dir => pure fs
      | some _ => throw "create_dir_all failed"
      | none => pure (fs.set q .dir))
    (pure fs)

/-- The loop body of `clean_packages` (main.rs:214-223). -/
def cleanLoop : Fs → List (FPath × String) → Except MainError Fs
  | fs, [] => .ok fs
  | fs, (dir, _) :: rest => do
    let r1 ← safer_remove_dir fs (dir ++ ["node_modules"])
    let r2 ← safer_remove_file r1.1 (dir ++ ["package-lock.json"])
    cleanLoop r2.1 rest

/-- Function `clean_packages` (main.rs:211-226): re-discover the packages, then delete
each package's `node_modules/` and `package-lock.json` through the safe
deleters. -/
def clean_packages (fs : Fs) (root : FPath) : Except MainError Fs :=
  cleanLoop fs (list_package_dirs fs root)

/-- One labelled audit section
(`format!("\n==== AUDIT FOR  {} ===={}\n", name, out)`, main.rs:105). -/
def audit_section (ext : Ext) (d : FPath × String) : String :=
  "\n==== AUDIT FOR  " ++ d.2 ++ " ====" ++
    String.mk (cmd_audit_sanitize ext.isA ext.isW (ext.npmAuditOut d.1)) ++ "\n"

/-- The consolidated audit report (main.rs:102-113): concatenated sections
followed by the fixed footer. -/
def auditContent (ext : Ext) (dirs : List (FPath × String)) : String :=
  String.join (dirs.map (audit_section ext)) ++
    "\n\n========= NOTE:\nnpm audit --audit-level=moderate (for each node directory)\n"

/-- The `main` pipeline (main.rs:48-156).  Validation failure prints the
error and returns normally (exit code 0).  `npm install` invocations are
recorded in `npmCalls`; the external process's own filesystem effects are out
of scope.  File writes, the lock-file copy loop, and the tar/gz phase reuse
the phase functions above; every `.expect`/`.unwrap` panic is the `.error`
branch. -/
def mainRun (ext : Ext) (fs0 : Fs) (cfg : RunConfig) : Except String RunResult :=
  let package_path := cfg.root ++ ["package.json"]
  if fs0.isFile package_path = false then
    .ok { exitCode := 0
        , printed := ["ERROR - Path '" ++ pathStr package_path
            ++ "' does not contain a package.json - abort"]
        , fs := fs0
        , npmCalls := [] }
  else
    match ext.parse (fs0.contentOf package_path) with
    | none => .error "get_drop_name unwrap panic"
    | some j =>
      let audit_root_dir := cfg.root ++ [".audit"]
      let audit_nm := audit_name (get_drop_name j)
      let audit_dir := audit_root_dir ++ [audit_nm]
      (do
        let fs1 ←
          if cfg.doAudit then do
            let r ← (safer_remove_dir fs0 audit_dir).mapError
              (fun _ => "Canot remove audit dir")
            createDirAll r.1 audit_dir
          else pure fs0
        let dirs := list_package_dirs fs1 cfg.root
        let fs2 ←
          if cfg.doClean then
            (clean_packages fs1 cfg.root).mapError (fun _ => "Can't clean packages")
          else pure fs1
        let installCalls := if cfg.doInstall then dirs.map (fun d => (d.1, "install")) else []
        if cfg.doAudit then do
          let fs4 := fs2.set (audit_dir ++ ["_audit.txt"]) (.file (auditContent ext dirs))
          let fs5 ← copyPackageLocks audit_dir fs4 dirs
          let tar_path := audit_root_dir ++ [audit_nm ++ ".tar"]
          let fs6 := fs5.set tar_path (.tarFile [])
          let entries ← tarEntries fs6 audit_dir audit_nm
          let fs7 := fs6.set tar_path (.tarFile entries)
          let fs8 := fs7.set (audit_root_dir ++ [audit_nm ++ ".tar" ++ ".gz"])
            (.gzFile entries)
          pure { exitCode := 0, printed := [], fs := fs8
               , npmCalls := installCalls ++ dirs.map (fun d => (d.1, "audit")) }
        else
          pure { exitCode := 0, printed := [], fs := fs2, npmCalls := installCalls })

/-- C5 (amended): when the root path does not directly contain a
`package.json` regular file, `main` prints the user-visible
`ERROR - Path ... - abort` message and performs no further work — the
filesystem is untouched (in particular no `.audit` directory is created) and
no subprocess runs — but it returns normally, i.e. with exit status ZERO, not
the non-zero status claimed. -/
theorem c5_validation (ext : Ext) (fs : Fs) (cfg : RunConfig)
    (h : fs.isFile (cfg.root ++ ["package.json"]) = false) :
    mainRun ext fs cfg
      = .ok { exitCode := 0
            , printed := ["ERROR - Path '" ++ pathStr (cfg.root ++ ["package.json"])
                ++ "' does not contain a package.json - abort"]
            , fs := fs
            , npmCalls := [] } := by
  unfold mainRun
  simp only [h, if_true, eq_self_iff_true]

/-- Concrete state for C5: a root directory with no manifest. -/
def c5Fs : Fs := [((["r"], FsEntry.dir))]

/-- Concrete externals for C5 (never consulted on the validation path). -/
def c5Ext : Ext :=
  { parse := fun _ => none
  , npmAuditOut := fun _ => []
  , isA := fun _ => false
  , isW := fun _ => false }

/-- Concrete configuration for C5: all phases enabled. -/
def c5Cfg : RunConfig :=
  { root := ["r"], doClean := true, doInstall := true, doAudit := true }

/-- Counterexample to C5 as stated: on a manifest-less root the run prints the
error and mutates nothing, but the exit code is 0 — `main` just returns — not
the claimed non-zero status. -/
theorem c5_validation_counterexample :
    mainRun c5Ext c5Fs c5Cfg
      = .ok { exitCode := 0
            , printed := ["ERROR - Path 'r/package.json' does not contain a package.json - abort"]
            , fs := c5Fs
            , npmCalls := [] } := by
  rfl

/-- Witness for the amended C5 at the concrete manifest-less state. -/
theorem c5_validation_witness :
    Fs.isFile c5Fs (c5Cfg.root ++ ["package.json"]) = false
  ∧ mainRun c5Ext c5Fs c5Cfg
      = .ok { exitCode := 0
            , printed := ["ERROR - Path '" ++ pathStr (c5Cfg.root ++ ["package.json"])
                ++ "' does not contain a package.json - abort"]
            , fs := c5Fs
            , npmCalls := [] } :=
  ⟨by decide, c5_validation c5Ext c5Fs c5Cfg (by decide)⟩

end Naudit
